import Mathlib

/-!
Verification development for the ClinQure data-consolidation tool (`src/app.py`).

Strings are modelled as lists of Unicode code points (`List Nat`), matching
Python's view of a `str` as a sequence of code points.  The similarity engine
(`difflib.get_close_matches` / `SequenceMatcher.ratio`) is embedded as the
actual stdlib algorithm (longest-matching-block recursion), with ratios in `ℚ`
(exact rationals; Python's doubles are exact for the short strings involved)
and without the `autojunk` heuristic, which only activates for strings of
length ≥ 200.  Python's `str.lower` is modelled on the ASCII range.
File parsing by pandas is external to the repository: a file is modelled as a
named byte-stream together with the outcome pandas would produce for it.
-/

/-- A Python string, as a list of Unicode code points. -/
abbrev PyStr := List Nat

/-- Code points of a Lean string literal, for concrete test inputs. -/
def pystr (s : String) : PyStr := s.data.map Char.toNat

/-- Python `str.strip()` whitespace test (ASCII whitespace range plus NEL). -/
def isSpaceCp (n : Nat) : Bool :=
  decide (n = 32 ∨ (9 ≤ n ∧ n ≤ 13) ∨ (28 ≤ n ∧ n ≤ 31) ∨ n = 133)

/-- Python `str.lower()` on a code point (ASCII case mapping). -/
def lowerCp (n : Nat) : Nat := if 65 ≤ n ∧ n ≤ 90 then n + 32 else n

/-- `replace(" ", "_")` on a code point: space (32) becomes underscore (95). -/
def underCp (n : Nat) : Nat := if n = 32 then 95 else n

/-- Drop trailing whitespace (the right half of Python `str.strip()`). -/
def stripRight (s : PyStr) : PyStr := ((s.reverse).dropWhile isSpaceCp).reverse

/-- Python `str.strip()`: drop leading and trailing whitespace. -/
def pyStrip (s : PyStr) : PyStr := stripRight (s.dropWhile isSpaceCp)

/-- `h.strip().lower().replace(" ", "_")` — the header normalization used at
`src/app.py` lines 90, 113–114 and 148. -/
def pyNormalize (s : PyStr) : PyStr := ((pyStrip s).map lowerCp).map underCp

-- Pointwise facts about the code-point maps.

lemma under_lower_under_lower (n : Nat) :
    underCp (lowerCp (underCp (lowerCp n))) = underCp (lowerCp n) := by
  unfold lowerCp underCp
  repeat' split
  all_goals omega

lemma isSpaceCp_lowerCp (n : Nat) : isSpaceCp (lowerCp n) = isSpaceCp n := by
  unfold lowerCp isSpaceCp
  split
  · simp only [decide_eq_decide]
    constructor <;> (intro h; omega)
  · rfl

lemma isSpaceCp_underCp_of_not (n : Nat) (h : isSpaceCp n = false) :
    isSpaceCp (underCp n) = false := by
  unfold isSpaceCp at h ⊢
  unfold underCp
  simp only [decide_eq_false_iff_not] at h ⊢
  split <;> omega

-- Heads and last elements of dropWhile / stripRight outputs.

lemma head?_dropWhile {p : Nat → Bool} {l : PyStr} {x : Nat}
    (h : (l.dropWhile p).head? = some x) : p x = false := by
  induction l with
  | nil => simp at h
  | cons a t ih =>
      rw [List.dropWhile_cons] at h
      by_cases hp : p a = true
      · rw [if_pos hp] at h; exact ih h
      · rw [if_neg hp] at h
        simp only [List.head?_cons, Option.some_inj] at h
        subst h
        exact Bool.eq_false_iff.mpr hp

lemma stripRight_head? {l : PyStr} {x : Nat}
    (h : (stripRight l).head? = some x) : l.head? = some x := by
  obtain ⟨pre, hpre⟩ : (l.reverse.dropWhile isSpaceCp) <:+ l.reverse :=
    List.dropWhile_suffix _
  have hl : l = (l.reverse.dropWhile isSpaceCp).reverse ++ pre.reverse := by
    have := congrArg List.reverse hpre
    simpa [List.reverse_append] using this.symm
  rw [hl, List.head?_append]
  unfold stripRight at h
  rw [h]
  rfl

lemma stripRight_getLast? {l : PyStr} {x : Nat}
    (h : (stripRight l).getLast? = some x) : isSpaceCp x = false := by
  unfold stripRight at h
  rw [List.getLast?_reverse] at h
  exact head?_dropWhile h

lemma pyStrip_head? {s : PyStr} {x : Nat}
    (h : (pyStrip s).head? = some x) : isSpaceCp x = false := by
  exact head?_dropWhile (stripRight_head? h)

lemma pyStrip_getLast? {s : PyStr} {x : Nat}
    (h : (pyStrip s).getLast? = some x) : isSpaceCp x = false :=
  stripRight_getLast? h

/-- A list whose first and last entries are not whitespace is unchanged by
`pyStrip`. -/
lemma pyStrip_eq_self {l : PyStr}
    (h1 : ∀ x, l.head? = some x → isSpaceCp x = false)
    (h2 : ∀ x, l.getLast? = some x → isSpaceCp x = false) : pyStrip l = l := by
  have hd : l.dropWhile isSpaceCp = l := by
    cases l with
    | nil => simp
    | cons a t =>
        have hna : isSpaceCp a = false := h1 a rfl
        rw [List.dropWhile_cons_of_neg (by simp [hna])]
  unfold pyStrip stripRight
  rw [hd]
  cases hr : l.reverse with
  | nil => simp_all
  | cons a t =>
      have ha : l.getLast? = some a := by
        rw [← List.head?_reverse, hr]; rfl
      have hna : isSpaceCp a = false := h2 a ha
      have hdw : (a :: t).dropWhile isSpaceCp = a :: t :=
        List.dropWhile_cons_of_neg (by simp [hna])
      rw [hdw, ← hr, List.reverse_reverse]

/-- The ends of a normalized header are never whitespace. -/
lemma pyNormalize_ends_clean (s : PyStr) :
    (∀ x, (pyNormalize s).head? = some x → isSpaceCp x = false) ∧
    (∀ x, (pyNormalize s).getLast? = some x → isSpaceCp x = false) := by
  unfold pyNormalize
  constructor
  · intro x hx
    simp only [List.head?_map] at hx
    rcases ho : (pyStrip s).head? with _ | h₀
    · rw [ho] at hx; simp at hx
    · rw [ho] at hx
      simp only [Option.map_some', Option.some_inj] at hx
      have hns : isSpaceCp h₀ = false := pyStrip_head? ho
      rw [← hx]
      exact isSpaceCp_underCp_of_not _ (by rw [isSpaceCp_lowerCp]; exact hns)
  · intro x hx
    simp only [List.getLast?_map] at hx
    rcases ho : (pyStrip s).getLast? with _ | h₀
    · rw [ho] at hx; simp at hx
    · rw [ho] at hx
      simp only [Option.map_some', Option.some_inj] at hx
      have hns : isSpaceCp h₀ = false := pyStrip_getLast? ho
      rw [← hx]
      exact isSpaceCp_underCp_of_not _ (by rw [isSpaceCp_lowerCp]; exact hns)

/-- C5 core: header normalization is idempotent. -/
lemma pyNormalize_idem (s : PyStr) : pyNormalize (pyNormalize s) = pyNormalize s := by
  obtain ⟨h1, h2⟩ := pyNormalize_ends_clean s
  conv_lhs => rw [pyNormalize, pyStrip_eq_self h1 h2]
  unfold pyNormalize
  simp only [List.map_map]
  apply List.map_congr_left
  intro n _
  exact under_lower_under_lower n

/-- C5: header normalization (`h.strip().lower().replace(" ", "_")`,
`src/app.py` line 90 / 148) is a pure function of the string and is
idempotent: `normalize(normalize(x)) = normalize(x)` for every header. -/
theorem claim_C5_normalize_idempotent (x : PyStr) :
    pyNormalize (pyNormalize x) = pyNormalize x :=
  pyNormalize_idem x

/-- C6 counterexample: the claim states that `" PATIENT   ID "` normalizes to
`patient_id`, runs of internal spaces collapsing to a single underscore.  The
code replaces every space by its own underscore, so `" PATIENT   ID "`
normalizes to `patient___id`, not to the token `patient_id` that
`"patient_id"` normalizes to. -/
theorem claim_C6_counterexample :
    pyNormalize (pystr " PATIENT   ID ") ≠ pyNormalize (pystr "patient_id") := by
  decide

/-- C6 amended: normalization is case-insensitive and trims surrounding
whitespace, so `"Patient ID"` and `"patient_id"` both normalize to
`patient_id`; but runs of internal spaces are NOT collapsed — each space
becomes its own underscore, so `" PATIENT   ID "` normalizes to
`patient___id`. -/
theorem claim_C6_amended :
    pyNormalize (pystr "Patient ID") = pystr "patient_id" ∧
    pyNormalize (pystr "patient_id") = pystr "patient_id" ∧
    pyNormalize (pystr " PATIENT   ID ") = pystr "patient___id" := by
  refine ⟨by decide, by decide, by decide⟩

/-! ## Consolidation model (`consolidate_files`, `src/app.py` lines 119–177)

A pandas dataframe is a column list plus rows; a cell is `Option PyStr`
(`none` = missing/NaN).  An uploaded file carries its name, its byte size, and
the outcome pandas produces when the file's bytes are read as a table (the
parser itself is external to the repository; the file records its outcome). -/

structure PTable where
  cols : List PyStr
  rows : List (List (Option PyStr))
deriving DecidableEq

/-- Outcome of `pd.read_csv` / `pd.read_excel` on a file's bytes:
a dataframe, an `EmptyDataError`, or any other exception. -/
inductive ParseOutcome
  | table (t : PTable)
  | emptyData
  | failure
deriving DecidableEq

structure UFile where
  name : PyStr
  size : Nat
  parsed : ParseOutcome
deriving DecidableEq

/-- `st.error` notices emitted by `consolidate_files`, one per skipped file. -/
inductive Notice
  | unsupported (name : PyStr)
  | empty (name : PyStr)
  | noData (name : PyStr)
  | readError (name : PyStr)
deriving DecidableEq

/-- `file.name.endswith(".csv")`. -/
def endsWithCsv (n : PyStr) : Bool := (pystr ".csv").isSuffixOf n

/-- `file.name.endswith(".xlsx")`. -/
def endsWithXlsx (n : PyStr) : Bool := (pystr ".xlsx").isSuffixOf n

/-- Python dict assignment `d[k] = v`: replace in place if the key exists,
else append. -/
def upsertS (m : List (PyStr × PyStr)) (k v : PyStr) : List (PyStr × PyStr) :=
  if m.any (fun e => decide (e.1 = k)) then
    m.map (fun e => if e.1 = k then (k, v) else e)
  else m ++ [(k, v)]

/-- Python dict lookup `d.get(k)`. -/
def lookupS (m : List (PyStr × PyStr)) (k : PyStr) : Option PyStr :=
  (m.find? (fun e => decide (e.1 = k))).map Prod.snd

/-- `{variation: standard for standard, variations in mapping_dict.items()
for variation in variations}` (`src/app.py` line 120). -/
def buildReverseMap (mapping : List (PyStr × List PyStr)) : List (PyStr × PyStr) :=
  mapping.foldl (fun acc kv => kv.2.foldl (fun a v => upsertS a v kv.1) acc) []

/-- The column-renaming loop (`src/app.py` lines 146–150): each column is
normalized and substituted by `reverse_map.get(normalized, normalized)`. -/
def renameTable (rev : List (PyStr × PyStr)) (t : PTable) : PTable :=
  { cols := t.cols.map (fun col => (lookupS rev (pyNormalize col)).getD (pyNormalize col)),
    rows := t.rows }

/-- The per-file body of the consolidation loop (`src/app.py` lines 127–159):
unsupported extension, zero size, and parse failures are skipped with an
error notice; otherwise columns are renamed and the table is kept. -/
def processFile (rev : List (PyStr × PyStr)) (f : UFile) : Sum Notice PTable :=
  if (endsWithCsv f.name || endsWithXlsx f.name) = false then
    Sum.inl (Notice.unsupported f.name)
  else if f.size = 0 then Sum.inl (Notice.empty f.name)
  else
    match f.parsed with
    | ParseOutcome.table t => Sum.inr (renameTable rev t)
    | ParseOutcome.emptyData => Sum.inl (Notice.noData f.name)
    | ParseOutcome.failure => Sum.inl (Notice.readError f.name)

/-- Column union of `pd.concat`: columns in order of first appearance. -/
def unionCols (ts : List PTable) : List PyStr :=
  ts.foldl (fun acc t => acc ++ t.cols.filter (fun c => decide (¬ c ∈ acc))) []

/-- Align one row of table `t` to the unified column list (cells of columns
absent from `t` become missing values). -/
def reindexRow (allCols : List PyStr) (t : PTable) (row : List (Option PyStr)) :
    List (Option PyStr) :=
  allCols.map (fun c =>
    match t.cols.findIdx? (fun c' => decide (c' = c)) with
    | some p => (row.get? p).join
    | none => none)

/-- `pd.concat(dfs, ignore_index=True)`: rows of all tables in order, aligned
by column name. -/
def concatTables (ts : List PTable) : PTable :=
  let cols := unionCols ts
  { cols := cols,
    rows := (ts.map (fun t => t.rows.map (reindexRow cols t))).foldr (· ++ ·) [] }

/-- `consolidate_files(files, mapping_dict)`: returns the consolidated table
(or `none` when no file produced one) together with the error notices in
emission order. -/
def consolidateFiles (files : List UFile) (mapping : List (PyStr × List PyStr)) :
    Option PTable × List Notice :=
  let rev := buildReverseMap mapping
  let acc := files.foldl
    (fun (acc : List PTable × List Notice) f =>
      match processFile rev f with
      | Sum.inr t => (acc.1 ++ [t], acc.2)
      | Sum.inl n => (acc.1, acc.2 ++ [n]))
    ([], [])
  if acc.1 = [] then (none, acc.2) else (some (concatTables acc.1), acc.2)

/-- Header collection inside `create_draft_mapping_excel` (`src/app.py` lines
82–88): every file is read with NO exception handling, so the first file that
fails to parse aborts the whole collection (the exception propagates); the
error is modelled as carrying the offending file's name. -/
def collectAllHeaders : List UFile → Except PyStr (List PyStr)
  | [] => Except.ok []
  | f :: fs =>
    match f.parsed with
    | ParseOutcome.table t =>
        match collectAllHeaders fs with
        | Except.ok hs => Except.ok (t.cols ++ hs)
        | Except.error e => Except.error e
    | _ => Except.error f.name

-- Evaluation lemmas for the per-file branch structure.

lemma processFile_valid {rev : List (PyStr × PyStr)} {f : UFile} {t : PTable}
    (hn : (endsWithCsv f.name || endsWithXlsx f.name) = true)
    (hs : f.size ≠ 0) (hp : f.parsed = ParseOutcome.table t) :
    processFile rev f = Sum.inr (renameTable rev t) := by
  simp [processFile, hn, hs, hp]

lemma processFile_emptyFile {rev : List (PyStr × PyStr)} {f : UFile}
    (hn : (endsWithCsv f.name || endsWithXlsx f.name) = true)
    (hs : f.size = 0) :
    processFile rev f = Sum.inl (Notice.empty f.name) := by
  simp [processFile, hn, hs]

/-- C2: in a batch of three files where file 2 is zero-length (with a
supported extension) and files 1 and 3 are valid, consolidation skips
file 2, emits exactly one error notice (for file 2), and the consolidated
table's rows are exactly file 1's rows followed by file 3's rows, each
aligned to the unified columns; the batch is not aborted. -/
theorem claim_C2_zero_length_file_skipped
    (f1 f2 f3 : UFile) (mapping : List (PyStr × List PyStr)) (t1 t3 : PTable)
    (h1n : (endsWithCsv f1.name || endsWithXlsx f1.name) = true)
    (h1s : f1.size ≠ 0) (h1p : f1.parsed = ParseOutcome.table t1)
    (h2n : (endsWithCsv f2.name || endsWithXlsx f2.name) = true)
    (h2s : f2.size = 0)
    (h3n : (endsWithCsv f3.name || endsWithXlsx f3.name) = true)
    (h3s : f3.size ≠ 0) (h3p : f3.parsed = ParseOutcome.table t3) :
    ∃ tb, consolidateFiles [f1, f2, f3] mapping = (some tb, [Notice.empty f2.name]) ∧
      tb.rows =
        t1.rows.map (reindexRow tb.cols (renameTable (buildReverseMap mapping) t1)) ++
        t3.rows.map (reindexRow tb.cols (renameTable (buildReverseMap mapping) t3)) := by
  have p1 := @processFile_valid (buildReverseMap mapping) f1 t1 h1n h1s h1p
  have p2 := @processFile_emptyFile (buildReverseMap mapping) f2 h2n h2s
  have p3 := @processFile_valid (buildReverseMap mapping) f3 t3 h3n h3s h3p
  refine ⟨concatTables [renameTable (buildReverseMap mapping) t1,
                        renameTable (buildReverseMap mapping) t3], ?_, ?_⟩
  · simp only [consolidateFiles, List.foldl_cons, List.foldl_nil, p1, p2, p3]
    simp
  · simp [concatTables, renameTable]

-- Columns of every kept table survive into the column union of pd.concat.

lemma unionColsStep_mem {acc : List PyStr} {t : PTable} {c : PyStr}
    (h : c ∈ t.cols) :
    c ∈ acc ++ t.cols.filter (fun x => decide (¬ x ∈ acc)) := by
  by_cases hacc : c ∈ acc
  · exact List.mem_append_left _ hacc
  · exact List.mem_append_right _ (List.mem_filter.mpr ⟨h, by simpa using hacc⟩)

lemma unionColsGo_mono (c : PyStr) :
    ∀ (ts : List PTable) (acc : List PyStr), c ∈ acc →
      c ∈ ts.foldl (fun acc t =>
        acc ++ t.cols.filter (fun x => decide (¬ x ∈ acc))) acc := by
  intro ts
  induction ts with
  | nil => intro acc h; exact h
  | cons t rest ih =>
      intro acc h
      rw [List.foldl_cons]
      exact ih _ (List.mem_append_left _ h)

lemma mem_unionCols {ts : List PTable} {tb : PTable} {c : PyStr}
    (ht : tb ∈ ts) (hc : c ∈ tb.cols) : c ∈ unionCols ts := by
  unfold unionCols
  induction ts generalizing tb with
  | nil => simp at ht
  | cons t rest ih =>
      rw [List.foldl_cons]
      rcases List.mem_cons.mp ht with rfl | ht'
      · exact unionColsGo_mono c rest _ (unionColsStep_mem hc)
      · -- the inner fold over rest starts from a bigger accumulator; reuse
        -- the generalized monotone argument by re-proving membership there
        have : ∀ (rest : List PTable) (acc : List PyStr), tb ∈ rest →
            c ∈ rest.foldl (fun acc t =>
              acc ++ t.cols.filter (fun x => decide (¬ x ∈ acc))) acc := by
          intro rest
          induction rest with
          | nil => intro acc h; simp at h
          | cons u us ihu =>
              intro acc h
              rw [List.foldl_cons]
              rcases List.mem_cons.mp h with rfl | h'
              · exact unionColsGo_mono c us _ (unionColsStep_mem hc)
              · exact ihu _ h'
        exact this rest _ ht'

-- A successfully processed file's table stays in the accumulated list.

lemma consolidateFold_mono (rev : List (PyStr × PyStr)) :
    ∀ (files : List UFile) (acc : List PTable × List Notice) (T : PTable),
      T ∈ acc.1 →
      T ∈ (files.foldl (fun (acc : List PTable × List Notice) g =>
        match processFile rev g with
        | Sum.inr t => (acc.1 ++ [t], acc.2)
        | Sum.inl n => (acc.1, acc.2 ++ [n])) acc).1 := by
  intro files
  induction files with
  | nil => intro acc T h; exact h
  | cons g gs ih =>
      intro acc T h
      rw [List.foldl_cons]
      cases processFile rev g with
      | inr t => exact ih _ T (List.mem_append_left _ h)
      | inl n => exact ih _ T h

lemma consolidateFold_table_mem (rev : List (PyStr × PyStr)) :
    ∀ (files : List UFile) (acc : List PTable × List Notice) (f : UFile)
      (T : PTable), f ∈ files → processFile rev f = Sum.inr T →
      T ∈ (files.foldl (fun (acc : List PTable × List Notice) g =>
        match processFile rev g with
        | Sum.inr t => (acc.1 ++ [t], acc.2)
        | Sum.inl n => (acc.1, acc.2 ++ [n])) acc).1 := by
  intro files
  induction files with
  | nil => intro acc f T h; simp at h
  | cons g gs ih =>
      intro acc f T hmem hpf
      rw [List.foldl_cons]
      rcases List.mem_cons.mp hmem with rfl | h'
      · rw [hpf]
        exact consolidateFold_mono rev gs _ T
          (List.mem_append_right _ (List.mem_singleton.mpr rfl))
      · exact ih _ f T h' hpf

/-- C7: in ANY consolidation batch, a valid file's column whose normalized
form is absent from the ReverseIndex passes through unchanged: the file is
processed without any error notice, the batch produces a consolidated table,
and the column appears in it under its normalized (not canonical) name. -/
theorem claim_C7_unmapped_header_passthrough
    (files : List UFile) (mapping : List (PyStr × List PyStr))
    (f : UFile) (t : PTable) (c : PyStr)
    (hfmem : f ∈ files)
    (hn : (endsWithCsv f.name || endsWithXlsx f.name) = true)
    (hs : f.size ≠ 0) (hp : f.parsed = ParseOutcome.table t)
    (hc : c ∈ t.cols)
    (hu : lookupS (buildReverseMap mapping) (pyNormalize c) = none) :
    processFile (buildReverseMap mapping) f
        = Sum.inr (renameTable (buildReverseMap mapping) t) ∧
    ∃ tb, (consolidateFiles files mapping).1 = some tb ∧
      pyNormalize c ∈ tb.cols := by
  have hpf := @processFile_valid (buildReverseMap mapping) f t hn hs hp
  refine ⟨hpf, ?_⟩
  rcases hsplit : files.foldl (fun (acc : List PTable × List Notice) g =>
      match processFile (buildReverseMap mapping) g with
      | Sum.inr t => (acc.1 ++ [t], acc.2)
      | Sum.inl n => (acc.1, acc.2 ++ [n])) ([], []) with ⟨tables, notices⟩
  have hcf : consolidateFiles files mapping =
      if tables = [] then (none, notices)
      else (some (concatTables tables), notices) := by
    unfold consolidateFiles
    simp only [hsplit]
  have htm : renameTable (buildReverseMap mapping) t ∈ tables := by
    have hx := consolidateFold_table_mem (buildReverseMap mapping) files ([], [])
      f (renameTable (buildReverseMap mapping) t) hfmem hpf
    rw [hsplit] at hx
    exact hx
  have hne : tables ≠ [] := by
    intro h0
    rw [h0] at htm
    simp at htm
  rw [hcf, if_neg hne]
  refine ⟨concatTables tables, rfl, ?_⟩
  show pyNormalize c ∈ unionCols tables
  apply mem_unionCols htm
  exact List.mem_map.mpr ⟨c, hc, by rw [hu]; rfl⟩

/-- C9 counterexample: one parseable file followed by one unparseable file.
The header-collection stage of `create_draft_mapping_excel` has no exception
handling, so the whole collection aborts with the second file's failure; the
first file's headers are NOT aggregated and no per-file error notice is
recorded, contradicting the claim. -/
theorem claim_C9_counterexample :
    collectAllHeaders
      [{ name := pystr "a.csv", size := 10,
         parsed := ParseOutcome.table { cols := [pystr "age"], rows := [] } },
       { name := pystr "b.csv", size := 10, parsed := ParseOutcome.failure }] =
      Except.error (pystr "b.csv") := rfl

/-- C9 amended: header collection is non-resilient — the first file that
fails to parse aborts the entire collection with that file's error, no matter
how many earlier files parsed successfully. -/
theorem claim_C9_amended_collection_aborts
    (pre : List UFile) (f : UFile) (post : List UFile)
    (hpre : ∀ g ∈ pre, ∃ t, g.parsed = ParseOutcome.table t)
    (hf : ∀ t, f.parsed ≠ ParseOutcome.table t) :
    collectAllHeaders (pre ++ f :: post) = Except.error f.name := by
  induction pre with
  | nil =>
      cases hfp : f.parsed with
      | table t => exact absurd hfp (hf t)
      | emptyData => simp only [List.nil_append, collectAllHeaders, hfp]
      | failure => simp only [List.nil_append, collectAllHeaders, hfp]
  | cons g gs ih =>
      obtain ⟨t, ht⟩ := hpre g (List.mem_cons_self g gs)
      have ih' : collectAllHeaders (gs.append (f :: post)) = Except.error f.name :=
        ih (fun g' hg' => hpre g' (List.mem_cons_of_mem g hg'))
      simp only [List.cons_append, collectAllHeaders, ht, ih']

/-- C9 amended, witness at a concrete batch. -/
theorem claim_C9_amended_witness :
    collectAllHeaders
      [{ name := pystr "a.csv", size := 10,
         parsed := ParseOutcome.table { cols := [pystr "age"], rows := [] } },
       { name := pystr "b.xlsx", size := 10, parsed := ParseOutcome.emptyData }] =
      Except.error (pystr "b.xlsx") := by
  exact claim_C9_amended_collection_aborts
    [{ name := pystr "a.csv", size := 10,
       parsed := ParseOutcome.table { cols := [pystr "age"], rows := [] } }]
    { name := pystr "b.xlsx", size := 10, parsed := ParseOutcome.emptyData }
    []
    (by intro g hg
        simp only [List.mem_singleton] at hg
        subst hg
        exact ⟨_, rfl⟩)
    (by intro t h; simpa using h)

-- Concrete sample data for witnesses.

def sampleT1 : PTable :=
  { cols := [pystr "Patient ID", pystr "Age"],
    rows := [[some (pystr "1"), some (pystr "30")]] }

def sampleT3 : PTable :=
  { cols := [pystr "patient_id", pystr "age"],
    rows := [[some (pystr "2"), some (pystr "45")]] }

def sampleF1 : UFile :=
  { name := pystr "one.csv", size := 20, parsed := ParseOutcome.table sampleT1 }

def sampleF2 : UFile :=
  { name := pystr "two.csv", size := 0, parsed := ParseOutcome.emptyData }

def sampleF3 : UFile :=
  { name := pystr "three.xlsx", size := 20, parsed := ParseOutcome.table sampleT3 }

/-- C2 witness: the three-file scenario at concrete inputs. -/
theorem claim_C2_witness :
    ∃ tb, consolidateFiles [sampleF1, sampleF2, sampleF3] [] =
        (some tb, [Notice.empty sampleF2.name]) ∧
      tb.rows =
        sampleT1.rows.map (reindexRow tb.cols (renameTable (buildReverseMap []) sampleT1)) ++
        sampleT3.rows.map (reindexRow tb.cols (renameTable (buildReverseMap []) sampleT3)) :=
  claim_C2_zero_length_file_skipped sampleF1 sampleF2 sampleF3 [] sampleT1 sampleT3
    (by decide) (by decide) rfl (by decide) rfl (by decide) (by decide) rfl

/-- C7 witness: an unmapped column of file 1 survives a three-file batch
that also contains an invalid (zero-length) file. -/
theorem claim_C7_witness :
    processFile (buildReverseMap []) sampleF1
        = Sum.inr (renameTable (buildReverseMap []) sampleT1) ∧
    ∃ tb, (consolidateFiles [sampleF1, sampleF2, sampleF3] []).1 = some tb ∧
      pyNormalize (pystr "Patient ID") ∈ tb.cols :=
  claim_C7_unmapped_header_passthrough [sampleF1, sampleF2, sampleF3] []
    sampleF1 sampleT1 (pystr "Patient ID") (by decide) (by decide) (by decide)
    rfl (by decide) rfl

-- Lookup semantics of the reverse index (C8).

lemma lookupS_cons (a : PyStr × PyStr) (m : List (PyStr × PyStr)) (k : PyStr) :
    lookupS (a :: m) k = if a.1 = k then some a.2 else lookupS m k := by
  unfold lookupS
  by_cases h : a.1 = k
  · rw [List.find?_cons_of_pos _ (by simpa using h), if_pos h]
    rfl
  · rw [List.find?_cons_of_neg _ (by simpa using h), if_neg h]

lemma lookupS_map_upd (m : List (PyStr × PyStr)) (k v k' : PyStr) :
    lookupS (m.map (fun e => if e.1 = k then (k, v) else e)) k' =
      if k' = k then
        (if m.any (fun e => decide (e.1 = k)) then some v else none)
      else lookupS m k' := by
  induction m with
  | nil => by_cases h : k' = k <;> simp [lookupS, h]
  | cons a t ih =>
      by_cases hak : a.1 = k
      · rw [List.map_cons, if_pos hak, lookupS_cons, lookupS_cons, List.any_cons]
        by_cases hk' : k' = k
        · subst hk'
          rw [if_pos rfl, if_pos rfl]
          simp [hak]
        · rw [if_neg (show (k, v).1 ≠ k' from fun h => hk' h.symm)]
          rw [if_neg (show a.1 ≠ k' from fun h => hk' (hak.symm.trans h).symm)]
          rw [ih, if_neg hk', if_neg hk']
      · rw [List.map_cons, if_neg hak, lookupS_cons, lookupS_cons, List.any_cons]
        by_cases hk'' : a.1 = k'
        · rw [if_pos hk'', if_pos hk'']
          rw [if_neg (show k' ≠ k from fun h => hak (hk''.trans h))]
        · rw [if_neg hk'', if_neg hk'', ih]
          by_cases hk' : k' = k
          · rw [if_pos hk', if_pos hk',
                show (decide (a.1 = k)) = false from by simpa using hak,
                Bool.false_or]
          · rw [if_neg hk', if_neg hk']

lemma lookupS_upsertS (m : List (PyStr × PyStr)) (k v k' : PyStr) :
    lookupS (upsertS m k v) k' = if k' = k then some v else lookupS m k' := by
  unfold upsertS
  by_cases h : m.any (fun e => decide (e.1 = k)) = true
  · rw [if_pos h, lookupS_map_upd, h]
    rcases Decidable.em (k' = k) with hk' | hk'
    · rw [if_pos hk', if_pos hk']
      rfl
    · rw [if_neg hk', if_neg hk']
  · rw [if_neg h]
    unfold lookupS
    rw [List.find?_append]
    by_cases hk' : k' = k
    · subst hk'
      have hnone : m.find? (fun e => decide (e.1 = k')) = none := by
        rw [List.find?_eq_none]
        intro e he
        by_contra hc
        exact h (List.any_eq_true.mpr ⟨e, he, by simpa using hc⟩)
      rw [hnone, Option.none_or, if_pos rfl,
          List.find?_cons_of_pos _ (by simp)]
      rfl
    · rw [if_neg hk']
      cases hf : m.find? (fun e => decide (e.1 = k')) with
      | some e => rfl
      | none =>
          rw [Option.none_or,
              List.find?_cons_of_neg _ (by simpa using fun h => hk' h.symm)]
          rfl

lemma lookupS_entryFold (vs : List PyStr) (std : PyStr) (acc : List (PyStr × PyStr))
    (v : PyStr) :
    lookupS (vs.foldl (fun a w => upsertS a w std) acc) v =
      if v ∈ vs then some std else lookupS acc v := by
  induction vs generalizing acc with
  | nil => simp
  | cons w ws ih =>
      rw [List.foldl_cons, ih, lookupS_upsertS]
      by_cases h1 : v ∈ ws
      · rw [if_pos h1, if_pos (List.mem_cons_of_mem w h1)]
      · rw [if_neg h1]
        by_cases h2 : v = w
        · rw [if_pos h2, if_pos (h2 ▸ List.mem_cons_self w ws)]
        · rw [if_neg h2, if_neg (by simp [h1, h2])]

lemma lookupS_buildFold (entries : List (PyStr × List PyStr))
    (acc : List (PyStr × PyStr)) (v : PyStr) :
    lookupS (entries.foldl (fun acc kv => kv.2.foldl (fun a w => upsertS a w kv.1) acc) acc) v =
      match (entries.filter (fun kv => decide (v ∈ kv.2))).getLast? with
      | some kv => some kv.1
      | none => lookupS acc v := by
  induction entries generalizing acc with
  | nil => simp
  | cons e es ih =>
      rw [List.foldl_cons, ih, List.filter_cons]
      by_cases he : v ∈ e.2
      · rw [if_pos (by simpa using he)]
        cases hes : (es.filter (fun kv => decide (v ∈ kv.2))).getLast? with
        | some kv =>
            rw [show ((e :: es.filter (fun kv => decide (v ∈ kv.2))).getLast?)
                  = some kv by rw [List.getLast?_cons, hes]; rfl]
        | none =>
            rw [show ((e :: es.filter (fun kv => decide (v ∈ kv.2))).getLast?)
                  = some e by
                have : es.filter (fun kv => decide (v ∈ kv.2)) = [] := by
                  cases hh : es.filter (fun kv => decide (v ∈ kv.2)) with
                  | nil => rfl
                  | cons x xs =>
                      rw [hh] at hes
                      exact absurd hes (by simp [List.getLast?_concat, List.getLast?_cons])
                rw [this]
                rfl]
            rw [lookupS_entryFold, if_pos he]
      · rw [if_neg (by simpa using he)]
        cases hes : (es.filter (fun kv => decide (v ∈ kv.2))).getLast? with
        | some kv => rfl
        | none => rw [lookupS_entryFold, if_neg he]

/-- The reverse index maps a variant to the canonical name of the LAST
mapping entry whose variant list contains it. -/
lemma lookupS_buildReverseMap (m : List (PyStr × List PyStr)) (v : PyStr) :
    lookupS (buildReverseMap m) v =
      ((m.filter (fun kv => decide (v ∈ kv.2))).getLast?).map Prod.fst := by
  unfold buildReverseMap
  rw [lookupS_buildFold]
  cases (m.filter (fun kv => decide (v ∈ kv.2))).getLast? with
  | some kv => rfl
  | none => simp [lookupS]

lemma filter_getLast?_of_last_mem {m : List (PyStr × List PyStr)} {v : PyStr} {j : Nat}
    (hj : j < m.length)
    (hpj : v ∈ (m.get ⟨j, hj⟩).2)
    (hafter : ∀ l (hl : l < m.length), j < l → ¬ v ∈ (m.get ⟨l, hl⟩).2) :
    (m.filter (fun kv => decide (v ∈ kv.2))).getLast? = some (m.get ⟨j, hj⟩) := by
  have hsplit : m = m.take (j + 1) ++ m.drop (j + 1) := (List.take_append_drop _ m).symm
  have hdrop : (m.drop (j + 1)).filter (fun kv => decide (v ∈ kv.2)) = [] := by
    rw [List.filter_eq_nil_iff]
    intro a ha
    obtain ⟨k, hk, hka⟩ := List.mem_iff_getElem.mp ha
    have hlen : j + 1 + k < m.length := by
      have := hk
      rw [List.length_drop] at this
      omega
    have : a = m.get ⟨j + 1 + k, hlen⟩ := by
      rw [← hka, List.getElem_drop]
      rfl
    subst this
    simpa using hafter (j + 1 + k) hlen (by omega)
  have htake : (m.take (j + 1)).filter (fun kv => decide (v ∈ kv.2)) =
      (m.take j).filter (fun kv => decide (v ∈ kv.2)) ++ [m.get ⟨j, hj⟩] := by
    rw [List.take_succ, List.filter_append]
    congr 1
    rw [List.getElem?_eq_getElem hj]
    simp only [Option.toList_some, List.filter_cons]
    rw [if_pos (by simpa using hpj)]
    rfl
  conv_lhs => rw [hsplit]
  rw [List.filter_append, hdrop, List.append_nil, htake, List.getLast?_concat]

/-- C8: when the same variant occurs in the variant lists of two different
mapping entries, `{variation: standard ...}` (`src/app.py` line 120) raises no
conflict — the dict comprehension silently overwrites, and the variant maps to
the canonical name of the later entry (last-write-wins). -/
theorem claim_C8_last_write_wins
    (m : List (PyStr × List PyStr)) (v : PyStr) (i j : Nat)
    (hij : i < j) (hj : j < m.length)
    (hvi : v ∈ (m.get ⟨i, Nat.lt_trans hij hj⟩).2)
    (hvj : v ∈ (m.get ⟨j, hj⟩).2)
    (hafter : ∀ l (hl : l < m.length), j < l → ¬ v ∈ (m.get ⟨l, hl⟩).2) :
    lookupS (buildReverseMap m) v = some (m.get ⟨j, hj⟩).1 := by
  rw [lookupS_buildReverseMap, filter_getLast?_of_last_mem hj hvj hafter]
  rfl

/-- C8 witness: variant `v` claimed by both `k1` (entry 0) and `k2`
(entry 1); the lookup returns `k2`. -/
theorem claim_C8_witness :
    lookupS (buildReverseMap [(pystr "k1", [pystr "v"]), (pystr "k2", [pystr "v"])])
        (pystr "v") =
      some (([(pystr "k1", [pystr "v"]), (pystr "k2", [pystr "v"])] :
              List (PyStr × List PyStr)).get ⟨1, by decide⟩).1 :=
  claim_C8_last_write_wins _ (pystr "v") 0 1 (by decide) (by decide)
    (by decide) (by decide) (by intro l hl hgt; simp at hl; omega)

/-! ## difflib model (`difflib.get_close_matches`, used at `src/app.py`
line 97)

`SequenceMatcher.ratio()` is `2*M/T` where `M` is the total size of the
matching blocks found by the recursive longest-matching-block algorithm and
`T` the sum of the lengths.  `find_longest_match` is embedded by its dynamic
program: `lcsuff i j` is the length of the longest common chain ending
exactly at `a[i]`/`b[j]` (not reaching below `alo`/`blo`), and the scan keeps
the first candidate (in `i`-major, `j`-minor order) that strictly beats the
running best — exactly the `if k > bestsize` update.  With no junk the
extension loops of `find_longest_match` can never fire, so they are omitted.
Ratios are exact rationals; the `autojunk` heuristic (strings of length
≥ 200) is not modelled. -/

def lcsuff (a b : PyStr) (alo blo : Nat) : Nat → Nat → Nat
  | 0, j => if a.get? 0 ≠ none ∧ a.get? 0 = b.get? j then 1 else 0
  | i + 1, j =>
      if a.get? (i + 1) ≠ none ∧ a.get? (i + 1) = b.get? j then
        1 + (if alo < i + 1 ∧ blo < j then lcsuff a b alo blo i (j - 1) else 0)
      else 0

/-- The `if k > bestsize` update of `find_longest_match`'s scan. -/
def flmStep (a b : PyStr) (alo blo : Nat) (best : Nat × Nat × Nat) (p : Nat × Nat) :
    Nat × Nat × Nat :=
  if best.2.2 < lcsuff a b alo blo p.1 p.2 then
    (p.1 + 1 - lcsuff a b alo blo p.1 p.2,
     p.2 + 1 - lcsuff a b alo blo p.1 p.2,
     lcsuff a b alo blo p.1 p.2)
  else best

/-- Scan order of `find_longest_match`: `i` ascending over `[alo, ahi)`,
`j` ascending over `[blo, bhi)`. -/
def flmCands (alo ahi blo bhi : Nat) : List (Nat × Nat) :=
  (List.range' alo (ahi - alo)).flatMap
    (fun i => (List.range' blo (bhi - blo)).map (fun j => (i, j)))

/-- `SequenceMatcher.find_longest_match(alo, ahi, blo, bhi)` (no junk):
returns `(besti, bestj, bestsize)`. -/
def findLongestMatch (a b : PyStr) (alo ahi blo bhi : Nat) : Nat × Nat × Nat :=
  (flmCands alo ahi blo bhi).foldl (flmStep a b alo blo) (alo, blo, 0)

/-- Total size of the matching blocks (`get_matching_blocks` recursion on the
two sides of each longest match); `fuel` bounds the recursion depth and
`(a.length + b.length) + 1` always suffices. -/
def matchTotalGo (a b : PyStr) : Nat → Nat → Nat → Nat → Nat → Nat
  | 0, _, _, _, _ => 0
  | fuel + 1, alo, ahi, blo, bhi =>
      let r := findLongestMatch a b alo ahi blo bhi
      if r.2.2 = 0 then 0
      else
        matchTotalGo a b fuel alo r.1 blo r.2.1 + r.2.2 +
          matchTotalGo a b fuel (r.1 + r.2.2) ahi (r.2.1 + r.2.2) bhi

/-- Sum of the sizes of difflib's matching blocks for `a` vs `b`. -/
def matchTotal (a b : PyStr) : Nat :=
  matchTotalGo a b (a.length + b.length + 1) 0 a.length 0 b.length

/-- `SequenceMatcher.ratio()`: `2*M/T`, and 1.0 when `T = 0`
(`_calculate_ratio`). -/
def pyRatio (a b : PyStr) : ℚ :=
  if a.length + b.length = 0 then 1
  else mkRat (2 * matchTotal a b) (a.length + b.length)

/-- `real_quick_ratio()`: `2*min(la, lb)/T`, an upper bound on `ratio`. -/
def realQuickRatio (a b : PyStr) : ℚ :=
  if a.length + b.length = 0 then 1
  else mkRat (2 * Nat.min a.length b.length) (a.length + b.length)

/-- The counting loop of `quick_ratio()`: walk `a`, consuming matching
elements from a multiset pool of `b`'s elements. -/
def poolMatches : PyStr → PyStr → Nat
  | [], _ => 0
  | c :: cs, pool =>
      if c ∈ pool then 1 + poolMatches cs (pool.erase c) else poolMatches cs pool

/-- `quick_ratio()`: twice the multiset intersection size over `T`. -/
def quickRatio (a b : PyStr) : ℚ :=
  if a.length + b.length = 0 then 1
  else mkRat (2 * poolMatches a b) (a.length + b.length)

/-- Python string comparison, lexicographic on code points: `s ≤ t`. -/
def pyStrLe : PyStr → PyStr → Bool
  | [], _ => true
  | _ :: _, [] => false
  | a :: as, b :: bs => if a < b then true else if b < a then false else pyStrLe as bs

/-- Descending order on `(score, string)` pairs: `p` may precede `q` in the
output of `sorted(..., reverse=True)` (Python tuple comparison). -/
def tupGe (p q : ℚ × PyStr) : Prop :=
  q.1 < p.1 ∨ (p.1 = q.1 ∧ pyStrLe q.2 p.2 = true)

instance : DecidableRel tupGe := fun p q =>
  inferInstanceAs (Decidable (_ ∨ _))

/-- `difflib.get_close_matches(word, possibilities, n, cutoff)`: keep the
possibilities whose three ratio tests all reach `cutoff`, sort the
`(ratio, string)` pairs to descending Python tuple order (`heapq.nlargest`,
equivalent to `sorted(..., reverse=True)[:n]`; all kept pairs are distinct, so
the descending ordering is unique and insertion sort computes it), truncate to
`n` and return the strings. -/
def getCloseMatches (word : PyStr) (poss : List PyStr) (n : Nat) (cutoff : ℚ) :
    List PyStr :=
  ((List.insertionSort tupGe (poss.filterMap (fun x =>
      if cutoff ≤ realQuickRatio x word ∧ cutoff ≤ quickRatio x word ∧
         cutoff ≤ pyRatio x word then some (pyRatio x word, x) else none))).take n).map
    Prod.snd

/-- The clustering loop of `create_draft_mapping_excel` (`src/app.py` lines
93–99): iterate the header universe in its enumeration order, skipping
headers already claimed (`visited`); each unvisited header becomes a
canonical name whose variants are its top-10 close matches over the WHOLE
universe, and every match is marked visited. -/
def clusterGo (univ : List PyStr) (cutoff : ℚ) :
    List PyStr → List PyStr → List (PyStr × List PyStr)
  | [], _ => []
  | h :: rest, visited =>
      if h ∈ visited then clusterGo univ cutoff rest visited
      else
        (h, getCloseMatches h univ 10 cutoff) ::
          clusterGo univ cutoff rest (visited ++ getCloseMatches h univ 10 cutoff)

/-- `mapping_dict` built by `create_draft_mapping_excel` from the
deduplicated normalized header list (`unique_headers = list(set(...))`, taken
in its enumeration order; Python's set order is arbitrary, so the list is the
model's parameter). -/
def createDraftMapping (uniqueHeaders : List PyStr) (cutoff : ℚ) :
    List (PyStr × List PyStr) :=
  clusterGo uniqueHeaders cutoff uniqueHeaders []

-- Bounds and character content of the lcsuff dynamic program.

lemma lcsuff_le_left (a b : PyStr) (alo blo : Nat) :
    ∀ i j, alo ≤ i → lcsuff a b alo blo i j ≤ i + 1 - alo := by
  intro i
  induction i with
  | zero =>
      intro j h
      interval_cases alo
      unfold lcsuff
      split <;> simp
  | succ i ih =>
      intro j h
      unfold lcsuff
      split
      · split
        · rename_i hg
          have := ih (j - 1) (by omega)
          omega
        · omega
      · omega

lemma lcsuff_le_right (a b : PyStr) (alo blo : Nat) :
    ∀ i j, blo ≤ j → lcsuff a b alo blo i j ≤ j + 1 - blo := by
  intro i
  induction i with
  | zero =>
      intro j h
      unfold lcsuff
      split <;> omega
  | succ i ih =>
      intro j h
      unfold lcsuff
      split
      · split
        · rename_i hg
          have := ih (j - 1) (by omega)
          omega
        · omega
      · omega

lemma lcsuff_chars (a b : PyStr) (alo blo : Nat) :
    ∀ i j t, t < lcsuff a b alo blo i j →
      a.get? (i - t) = b.get? (j - t) ∧ (a.get? (i - t)).isSome := by
  intro i
  induction i with
  | zero =>
      intro j t ht
      unfold lcsuff at ht
      split at ht
      · rename_i hc
        have ht0 : t = 0 := by omega
        subst ht0
        refine ⟨hc.2, ?_⟩
        rcases ha : a.get? 0 with _ | x
        · exact absurd ha hc.1
        · rfl
      · omega
  | succ i ih =>
      intro j t ht
      unfold lcsuff at ht
      split at ht
      · rename_i hc
        cases t with
        | zero =>
            have h1 : a.get? (i + 1 - 0) = b.get? (j - 0) := by simpa using hc.2
            have h2 : a.get? (i + 1 - 0) ≠ none := by simpa using hc.1
            exact ⟨h1, Option.isSome_iff_ne_none.mpr h2⟩
        | succ s =>
            split at ht
            · rename_i hg
              have hs : s < lcsuff a b alo blo i (j - 1) := by omega
              have := ih (j - 1) s hs
              have hi : i - s = i + 1 - (s + 1) := by omega
              have hj : j - 1 - s = j - (s + 1) := by omega
              rw [hi, hj] at this
              exact this
            · omega
      · omega

lemma lcsuff_self_diag (a : PyStr) :
    ∀ i, i < a.length → lcsuff a a 0 0 i i = i + 1 := by
  intro i
  induction i with
  | zero =>
      intro h
      have hg : a.get? 0 ≠ none ∧ a.get? 0 = a.get? 0 := by
        refine ⟨?_, rfl⟩
        rw [List.get?_eq_getElem?, List.getElem?_eq_getElem h]
        simp
      unfold lcsuff
      rw [if_pos hg]
  | succ i ih =>
      intro h
      have hg : a.get? (i + 1) ≠ none ∧ a.get? (i + 1) = a.get? (i + 1) := by
        refine ⟨?_, rfl⟩
        rw [List.get?_eq_getElem?, List.getElem?_eq_getElem h]
        simp
      unfold lcsuff
      rw [if_pos hg, if_pos (show 0 < i + 1 ∧ 0 < i + 1 by omega)]
      rw [Nat.add_sub_cancel, ih (by omega)]
      omega

lemma lcsuff_le_min (a b : PyStr) (i j : Nat) :
    lcsuff a a 0 0 i j ≤ Nat.min i j + 1 := by
  have h1 := lcsuff_le_left a a 0 0 i j (Nat.zero_le i)
  have h2 := lcsuff_le_right a a 0 0 i j (Nat.zero_le j)
  unfold Nat.min
  omega

-- The scan of find_longest_match: membership, running maximum, attainment.

lemma flmCands_mem {alo ahi blo bhi : Nat} {p : Nat × Nat} :
    p ∈ flmCands alo ahi blo bhi ↔
      alo ≤ p.1 ∧ p.1 < ahi ∧ blo ≤ p.2 ∧ p.2 < bhi := by
  rcases p with ⟨i, j⟩
  unfold flmCands
  simp only [List.mem_flatMap, List.mem_map, List.mem_range'_1, Prod.mk.injEq]
  constructor
  · rintro ⟨i', ⟨hi1, hi2⟩, j', ⟨hj1, hj2⟩, rfl, rfl⟩
    omega
  · rintro ⟨h1, h2, h3, h4⟩
    exact ⟨i, ⟨h1, by omega⟩, j, ⟨h3, by omega⟩, rfl, rfl⟩

lemma flmFold_spec (a b : PyStr) (alo blo : Nat) (cands : List (Nat × Nat))
    (init : Nat × Nat × Nat) :
    (∀ p ∈ cands,
        lcsuff a b alo blo p.1 p.2 ≤ (cands.foldl (flmStep a b alo blo) init).2.2) ∧
    ((cands.foldl (flmStep a b alo blo) init) = init ∨
      ∃ p ∈ cands,
        0 < (cands.foldl (flmStep a b alo blo) init).2.2 ∧
        lcsuff a b alo blo p.1 p.2 = (cands.foldl (flmStep a b alo blo) init).2.2 ∧
        (cands.foldl (flmStep a b alo blo) init) =
          (p.1 + 1 - (cands.foldl (flmStep a b alo blo) init).2.2,
           p.2 + 1 - (cands.foldl (flmStep a b alo blo) init).2.2,
           (cands.foldl (flmStep a b alo blo) init).2.2)) ∧
    init.2.2 ≤ (cands.foldl (flmStep a b alo blo) init).2.2 := by
  induction cands generalizing init with
  | nil => exact ⟨by intro p hp; simp at hp, Or.inl rfl, Nat.le_refl _⟩
  | cons q qs ih =>
      rw [List.foldl_cons]
      obtain ⟨ih1, ih2, ih3⟩ := ih (flmStep a b alo blo init q)
      have hstep : lcsuff a b alo blo q.1 q.2 ≤ (flmStep a b alo blo init q).2.2 ∧
          init.2.2 ≤ (flmStep a b alo blo init q).2.2 := by
        unfold flmStep
        split <;> simp <;> omega
      refine ⟨?_, ?_, ?_⟩
      · intro p hp
        rcases List.mem_cons.mp hp with rfl | hp'
        · exact Nat.le_trans hstep.1 ih3
        · exact ih1 p hp'
      · rcases ih2 with heq | ⟨p, hp, hpos, hval, hshape⟩
        · rw [heq]
          unfold flmStep
          split
          · rename_i hlt
            right
            refine ⟨q, List.mem_cons_self q qs, by simp; omega, by simp, by simp⟩
          · left; rfl
        · right
          exact ⟨p, List.mem_cons_of_mem q hp, hpos, hval, hshape⟩
      · exact Nat.le_trans hstep.2 ih3

lemma flm_bounds {a b : PyStr} {alo ahi blo bhi : Nat}
    (hab : alo ≤ ahi) (hbb : blo ≤ bhi) :
    alo ≤ (findLongestMatch a b alo ahi blo bhi).1 ∧
    (findLongestMatch a b alo ahi blo bhi).1 +
      (findLongestMatch a b alo ahi blo bhi).2.2 ≤ ahi ∧
    blo ≤ (findLongestMatch a b alo ahi blo bhi).2.1 ∧
    (findLongestMatch a b alo ahi blo bhi).2.1 +
      (findLongestMatch a b alo ahi blo bhi).2.2 ≤ bhi := by
  obtain ⟨_, h2, _⟩ := flmFold_spec a b alo blo (flmCands alo ahi blo bhi) (alo, blo, 0)
  rcases h2 with heq | ⟨p, hp, hpos, hval, hshape⟩
  · unfold findLongestMatch
    rw [heq]
    simp
    omega
  · obtain ⟨hp1, hp2, hp3, hp4⟩ := flmCands_mem.mp hp
    have hkl := lcsuff_le_left a b alo blo p.1 p.2 hp1
    have hkr := lcsuff_le_right a b alo blo p.1 p.2 hp3
    unfold findLongestMatch
    rw [hshape]
    simp only
    rw [hval] at hkl hkr
    constructor
    · omega
    constructor
    · omega
    constructor
    · omega
    · omega

-- Slices of strings, for reasoning about matching blocks.

def pySlice (l : PyStr) (lo hi : Nat) : PyStr := (l.drop lo).take (hi - lo)

lemma pySlice_nil {l : PyStr} {lo hi : Nat} (h : hi ≤ lo) : pySlice l lo hi = [] := by
  unfold pySlice
  rw [show hi - lo = 0 by omega]
  rfl

lemma pySlice_full (l : PyStr) : pySlice l 0 l.length = l := by
  unfold pySlice
  simp

lemma pySlice_append (l : PyStr) {lo m hi : Nat} (h1 : lo ≤ m) (h2 : m ≤ hi) :
    pySlice l lo hi = pySlice l lo m ++ pySlice l m hi := by
  unfold pySlice
  rw [show hi - lo = (m - lo) + (hi - m) by omega, List.take_add]
  congr 2
  rw [List.drop_drop]
  congr 1
  omega

lemma pySlice_eq_of_get? {a b : PyStr} {i j k : Nat}
    (h : ∀ t, t < k → a.get? (i + t) = b.get? (j + t)) :
    pySlice a i (i + k) = pySlice b j (j + k) := by
  apply List.ext_getElem?
  intro n
  unfold pySlice
  rw [show i + k - i = k by omega, show j + k - j = k by omega,
      List.getElem?_take, List.getElem?_take]
  by_cases hn : n < k
  · rw [if_pos hn, if_pos hn, List.getElem?_drop, List.getElem?_drop]
    have := h n hn
    simpa using this
  · rw [if_neg hn, if_neg hn]

-- Empty ranges produce the trivial match.

lemma flmCands_empty {alo ahi blo bhi : Nat} (h : ahi ≤ alo ∨ bhi ≤ blo) :
    flmCands alo ahi blo bhi = [] := by
  unfold flmCands
  rcases h with h | h
  · rw [show ahi - alo = 0 by omega]
    rfl
  · rw [show bhi - blo = 0 by omega]
    simp

lemma flm_empty {a b : PyStr} {alo ahi blo bhi : Nat} (h : ahi ≤ alo ∨ bhi ≤ blo) :
    findLongestMatch a b alo ahi blo bhi = (alo, blo, 0) := by
  unfold findLongestMatch
  rw [flmCands_empty h]
  rfl

lemma matchTotalGo_empty (a b : PyStr) (fuel alo blo : Nat) :
    matchTotalGo a b fuel alo alo blo blo = 0 := by
  cases fuel with
  | zero => rfl
  | succ fuel =>
      simp [matchTotalGo, flm_empty (Or.inl (Nat.le_refl alo))]

/-- Twice the total match size never exceeds the total range size. -/
lemma matchTotalGo_le (a b : PyStr) :
    ∀ fuel alo ahi blo bhi, alo ≤ ahi → blo ≤ bhi →
      2 * matchTotalGo a b fuel alo ahi blo bhi ≤ (ahi - alo) + (bhi - blo) := by
  intro fuel
  induction fuel with
  | zero =>
      intro alo ahi blo bhi h1 h2
      simp [matchTotalGo]
  | succ fuel ih =>
      intro alo ahi blo bhi h1 h2
      rcases hr : findLongestMatch a b alo ahi blo bhi with ⟨i, j, k⟩
      have hb := flm_bounds (a := a) (b := b) h1 h2
      rw [hr] at hb
      dsimp only at hb
      obtain ⟨hb1, hb2, hb3, hb4⟩ := hb
      simp only [matchTotalGo, hr]
      by_cases hk : k = 0
      · rw [if_pos hk]
        omega
      · rw [if_neg hk]
        have hL := ih alo i blo j hb1 hb3
        have hR := ih (i + k) ahi (j + k) bhi hb2 hb4
        omega

/-- When twice the total match size equals the total range size, the two
ranges hold identical contents. -/
lemma matchTotalGo_full (a b : PyStr) :
    ∀ fuel alo ahi blo bhi, alo ≤ ahi → blo ≤ bhi →
      2 * matchTotalGo a b fuel alo ahi blo bhi = (ahi - alo) + (bhi - blo) →
      pySlice a alo ahi = pySlice b blo bhi := by
  intro fuel
  induction fuel with
  | zero =>
      intro alo ahi blo bhi h1 h2 heq
      simp only [matchTotalGo] at heq
      rw [pySlice_nil (by omega), pySlice_nil (by omega)]
  | succ fuel ih =>
      intro alo ahi blo bhi h1 h2 heq
      rcases hr : findLongestMatch a b alo ahi blo bhi with ⟨i, j, k⟩
      have hb := flm_bounds (a := a) (b := b) h1 h2
      rw [hr] at hb
      dsimp only at hb
      obtain ⟨hb1, hb2, hb3, hb4⟩ := hb
      simp only [matchTotalGo, hr] at heq
      by_cases hk : k = 0
      · rw [if_pos hk] at heq
        rw [pySlice_nil (by omega), pySlice_nil (by omega)]
      · rw [if_neg hk] at heq
        have hL := matchTotalGo_le a b fuel alo i blo j hb1 hb3
        have hR := matchTotalGo_le a b fuel (i + k) ahi (j + k) bhi hb2 hb4
        have hLeq : 2 * matchTotalGo a b fuel alo i blo j =
            (i - alo) + (j - blo) := by omega
        have hReq : 2 * matchTotalGo a b fuel (i + k) ahi (j + k) bhi =
            (ahi - (i + k)) + (bhi - (j + k)) := by omega
        have sliceL := ih alo i blo j hb1 hb3 hLeq
        have sliceR := ih (i + k) ahi (j + k) bhi hb2 hb4 hReq
        have hmid : pySlice a i (i + k) = pySlice b j (j + k) := by
          obtain ⟨_, hatt, _⟩ :=
            flmFold_spec a b alo blo (flmCands alo ahi blo bhi) (alo, blo, 0)
          have hflm : (flmCands alo ahi blo bhi).foldl (flmStep a b alo blo)
              (alo, blo, 0) = (i, j, k) := hr
          rw [hflm] at hatt
          dsimp only at hatt
          rcases hatt with heq0 | ⟨p, hp, _, hval, hshape⟩
          · exact absurd (congrArg (fun t => t.2.2) heq0) (by simpa using hk)
          · obtain ⟨hq1, hq2, hq3, hq4⟩ := flmCands_mem.mp hp
            have hkl := lcsuff_le_left a b alo blo p.1 p.2 hq1
            have hkr := lcsuff_le_right a b alo blo p.1 p.2 hq3
            rw [hval] at hkl hkr
            have hi : i = p.1 + 1 - k := congrArg (fun t => t.1) hshape
            have hj : j = p.2 + 1 - k := congrArg (fun t => t.2.1) hshape
            apply pySlice_eq_of_get?
            intro t ht
            have e1 : i + t = p.1 - (k - 1 - t) := by omega
            have e2 : j + t = p.2 - (k - 1 - t) := by omega
            rw [e1, e2]
            exact (lcsuff_chars a b alo blo p.1 p.2 (k - 1 - t)
              (by rw [hval]; omega)).1
        rw [pySlice_append a (show alo ≤ i from hb1) (show i ≤ ahi by omega),
            pySlice_append a (show i ≤ i + k by omega) (show i + k ≤ ahi from hb2),
            pySlice_append b (show blo ≤ j from hb3) (show j ≤ bhi by omega),
            pySlice_append b (show j ≤ j + k by omega) (show j + k ≤ bhi from hb4),
            sliceL, hmid, sliceR]

/-- On identical strings the scan finds the whole string as one block. -/
lemma flm_self (a : PyStr) (h : a.length ≠ 0) :
    findLongestMatch a a 0 a.length 0 a.length = (0, 0, a.length) := by
  have hfe : findLongestMatch a a 0 a.length 0 a.length
      = (flmCands 0 a.length 0 a.length).foldl (flmStep a a 0 0) (0, 0, 0) := rfl
  obtain ⟨hmax, hatt, _⟩ :=
    flmFold_spec a a 0 0 (flmCands 0 a.length 0 a.length) (0, 0, 0)
  rw [hfe]
  have hdiag : lcsuff a a 0 0 (a.length - 1) (a.length - 1) = a.length := by
    rw [lcsuff_self_diag a (a.length - 1) (by omega)]
    omega
  have hcand : ((a.length - 1 : Nat), (a.length - 1 : Nat)) ∈
      flmCands 0 a.length 0 a.length := flmCands_mem.mpr (by omega)
  have h1 : a.length ≤
      ((flmCands 0 a.length 0 a.length).foldl (flmStep a a 0 0) (0, 0, 0)).2.2 := by
    have := hmax _ hcand
    rw [hdiag] at this
    exact this
  rcases hatt with heq | ⟨p, hp, hpos, hval, hshape⟩
  · exfalso
    rw [heq] at h1
    have h1' : a.length ≤ 0 := h1
    omega
  · obtain ⟨hq1, hq2, hq3, hq4⟩ := flmCands_mem.mp hp
    have hle := lcsuff_le_min a a p.1 p.2
    rw [hval] at hle
    have hminb : Nat.min p.1 p.2 + 1 ≤ a.length := by
      unfold Nat.min
      omega
    have hk : ((flmCands 0 a.length 0 a.length).foldl
        (flmStep a a 0 0) (0, 0, 0)).2.2 = a.length := by
      omega
    have hp1 : p.1 = a.length - 1 := by
      have hh := lcsuff_le_left a a 0 0 p.1 p.2 hq1
      rw [hval, hk] at hh
      omega
    have hp2 : p.2 = a.length - 1 := by
      have hh := lcsuff_le_right a a 0 0 p.1 p.2 hq3
      rw [hval, hk] at hh
      omega
    rw [hshape, hk, hp1, hp2]
    rw [show a.length - 1 + 1 - a.length = 0 by omega]

lemma matchTotal_self (a : PyStr) : matchTotal a a = a.length := by
  unfold matchTotal
  by_cases h : a.length = 0
  · rw [h]
    rfl
  · have hstep : matchTotalGo a a (a.length + a.length + 1) 0 a.length 0 a.length
        = matchTotalGo a a (a.length + a.length) 0 0 0 0 + a.length +
          matchTotalGo a a (a.length + a.length) a.length a.length a.length a.length := by
      simp only [matchTotalGo, flm_self a h]
      rw [if_neg h]
      norm_num
    rw [hstep, matchTotalGo_empty, matchTotalGo_empty]
    omega

lemma mkRat_eq_div_int (n : Int) (d : Nat) : mkRat n d = (n : ℚ) / (d : ℚ) := by
  rw [Rat.mkRat_eq_divInt, Rat.divInt_eq_div]
  norm_num

/-- `ratio` is 1 on identical strings. -/
lemma pyRatio_self (a : PyStr) : pyRatio a a = 1 := by
  unfold pyRatio
  by_cases h : a.length + a.length = 0
  · rw [if_pos h]
  · rw [if_neg h, matchTotal_self, mkRat_eq_div_int]
    rw [div_eq_one_iff_eq (Nat.cast_ne_zero.mpr h)]
    push_cast
    ring

/-- `ratio` never exceeds 1. -/
lemma pyRatio_le_one (a b : PyStr) : pyRatio a b ≤ 1 := by
  unfold pyRatio
  by_cases h : a.length + b.length = 0
  · rw [if_pos h]
  · rw [if_neg h, mkRat_eq_div_int]
    rw [div_le_one (by exact_mod_cast (by omega : 0 < a.length + b.length))]
    have hle := matchTotalGo_le a b (a.length + b.length + 1) 0 a.length 0 b.length
      (Nat.zero_le _) (Nat.zero_le _)
    have hnat : 2 * matchTotal a b ≤ a.length + b.length := by
      unfold matchTotal
      omega
    push_cast
    exact_mod_cast hnat

/-- `ratio` reaches 1 only on identical strings. -/
lemma pyRatio_eq_one {a b : PyStr} (h : pyRatio a b = 1) : a = b := by
  unfold pyRatio at h
  by_cases h0 : a.length + b.length = 0
  · have ha : a = [] := List.length_eq_zero.mp (by omega)
    have hb : b = [] := List.length_eq_zero.mp (by omega)
    rw [ha, hb]
  · rw [if_neg h0, mkRat_eq_div_int] at h
    rw [div_eq_one_iff_eq (Nat.cast_ne_zero.mpr h0)] at h
    have hnat : 2 * matchTotal a b = a.length + b.length := by exact_mod_cast h
    unfold matchTotal at hnat
    have := matchTotalGo_full a b (a.length + b.length + 1) 0 a.length 0 b.length
      (Nat.zero_le _) (Nat.zero_le _) (by omega)
    rw [pySlice_full, pySlice_full] at this
    exact this

/-- `quick_ratio`'s count on identical strings is the full length. -/
lemma poolMatches_self (l : PyStr) : poolMatches l l = l.length := by
  induction l with
  | nil => rfl
  | cons c cs ih =>
      unfold poolMatches
      rw [if_pos (List.mem_cons_self c cs), List.erase_cons_head, ih,
          List.length_cons]
      omega

lemma quickRatio_self (a : PyStr) : quickRatio a a = 1 := by
  unfold quickRatio
  by_cases h : a.length + a.length = 0
  · rw [if_pos h]
  · rw [if_neg h, poolMatches_self, mkRat_eq_div_int]
    rw [div_eq_one_iff_eq (Nat.cast_ne_zero.mpr h)]
    push_cast
    ring

lemma realQuickRatio_self (a : PyStr) : realQuickRatio a a = 1 := by
  unfold realQuickRatio
  by_cases h : a.length + a.length = 0
  · rw [if_pos h]
  · rw [if_neg h, show Nat.min a.length a.length = a.length from by unfold Nat.min; omega,
        mkRat_eq_div_int]
    rw [div_eq_one_iff_eq (Nat.cast_ne_zero.mpr h)]
    push_cast
    ring

-- The descending tuple order is total and transitive.

lemma pyStrLe_total : ∀ s t : PyStr, pyStrLe s t = true ∨ pyStrLe t s = true := by
  intro s
  induction s with
  | nil => intro t; left; rfl
  | cons a as ih =>
      intro t
      cases t with
      | nil => right; rfl
      | cons b bs =>
          unfold pyStrLe
          rcases Nat.lt_trichotomy a b with h | h | h
          · left
            rw [if_pos h]
          · subst h
            rcases ih bs with h' | h'
            · left
              rw [if_neg (by omega), if_neg (by omega)]
              exact h'
            · right
              rw [if_neg (by omega), if_neg (by omega)]
              exact h'
          · right
            rw [if_pos h]

lemma pyStrLe_trans : ∀ s t u : PyStr,
    pyStrLe s t = true → pyStrLe t u = true → pyStrLe s u = true := by
  intro s
  induction s with
  | nil => intro t u _ _; rfl
  | cons a as ih =>
      intro t u h1 h2
      cases t with
      | nil => exact absurd h1 (by simp [pyStrLe])
      | cons b bs =>
          cases u with
          | nil => exact absurd h2 (by simp [pyStrLe])
          | cons c cs =>
              unfold pyStrLe at h1 h2 ⊢
              rcases Nat.lt_trichotomy a b with hab | hab | hab
              · rcases Nat.lt_trichotomy b c with hbc | hbc | hbc
                · rw [if_pos (by omega)]
                · subst hbc
                  rw [if_pos (by omega)]
                · rw [if_pos hbc, if_neg (by omega)] at h2
                  simp at h2
              · subst hab
                rcases Nat.lt_trichotomy a c with hac | hac | hac
                · rw [if_pos hac]
                · subst hac
                  rw [if_neg (by omega), if_neg (by omega)] at h1 h2 ⊢
                  exact ih bs cs h1 h2
                · rw [if_neg (by omega), if_pos hac] at h2
                  simp at h2
              · rw [if_neg (by omega), if_pos hab] at h1
                simp at h1

instance : IsTotal (ℚ × PyStr) tupGe where
  total := by
    intro p q
    unfold tupGe
    rcases lt_trichotomy p.1 q.1 with h | h | h
    · right; left; exact h
    · rcases pyStrLe_total p.2 q.2 with h' | h'
      · right; right; exact ⟨h.symm, h'⟩
      · left; right; exact ⟨h, h'⟩
    · left; left; exact h

instance : IsTrans (ℚ × PyStr) tupGe where
  trans := by
    intro p q r h1 h2
    unfold tupGe at h1 h2 ⊢
    rcases h1 with h1 | ⟨h1e, h1s⟩
    · rcases h2 with h2 | ⟨h2e, h2s⟩
      · left; exact lt_trans h2 h1
      · left; rw [← h2e]; exact h1
    · rcases h2 with h2 | ⟨h2e, h2s⟩
      · left; rw [h1e]; exact h2
      · right; exact ⟨h1e.trans h2e, pyStrLe_trans _ _ _ h2s h1s⟩

-- The scored list of get_close_matches.

lemma gcm_scored_mem {word : PyStr} {poss : List PyStr} {cutoff : ℚ}
    {y : ℚ × PyStr}
    (h : y ∈ poss.filterMap (fun x =>
      if cutoff ≤ realQuickRatio x word ∧ cutoff ≤ quickRatio x word ∧
         cutoff ≤ pyRatio x word then some (pyRatio x word, x) else none)) :
    y.2 ∈ poss ∧ y.1 = pyRatio y.2 word := by
  obtain ⟨x, hx, hfx⟩ := List.mem_filterMap.mp h
  split at hfx
  · cases hfx
    exact ⟨hx, rfl⟩
  · cases hfx

lemma gcm_scored_self {word : PyStr} {poss : List PyStr} {cutoff : ℚ}
    (hmem : word ∈ poss) (hcut : cutoff ≤ 1) :
    ((1 : ℚ), word) ∈ poss.filterMap (fun x =>
      if cutoff ≤ realQuickRatio x word ∧ cutoff ≤ quickRatio x word ∧
         cutoff ≤ pyRatio x word then some (pyRatio x word, x) else none) := by
  apply List.mem_filterMap.mpr
  refine ⟨word, hmem, ?_⟩
  rw [if_pos ⟨by rw [realQuickRatio_self]; exact hcut,
              by rw [quickRatio_self]; exact hcut,
              by rw [pyRatio_self]; exact hcut⟩]
  rw [pyRatio_self]

/-- With the word itself among the possibilities and a cutoff ≤ 1, the word
heads its own match list: the self match scores exactly 1, every other
possibility scores strictly below 1, and the sort is descending. -/
lemma gcm_head {word : PyStr} {poss : List PyStr} {cutoff : ℚ} {n : Nat}
    (hmem : word ∈ poss) (hcut : cutoff ≤ 1) (hn : 0 < n) :
    (getCloseMatches word poss n cutoff).head? = some word := by
  unfold getCloseMatches
  have hself := gcm_scored_self hmem hcut
  have hsorted := List.sorted_insertionSort tupGe (poss.filterMap (fun x =>
    if cutoff ≤ realQuickRatio x word ∧ cutoff ≤ quickRatio x word ∧
       cutoff ≤ pyRatio x word then some (pyRatio x word, x) else none))
  have hperm := List.perm_insertionSort tupGe (poss.filterMap (fun x =>
    if cutoff ≤ realQuickRatio x word ∧ cutoff ≤ quickRatio x word ∧
       cutoff ≤ pyRatio x word then some (pyRatio x word, x) else none))
  cases hs : List.insertionSort tupGe (poss.filterMap (fun x =>
      if cutoff ≤ realQuickRatio x word ∧ cutoff ≤ quickRatio x word ∧
         cutoff ≤ pyRatio x word then some (pyRatio x word, x) else none)) with
  | nil =>
      exfalso
      have : ((1 : ℚ), word) ∈ ([] : List (ℚ × PyStr)) := by
        rw [← hs]
        exact (hperm.symm.mem_iff).mp hself
      simp at this
  | cons hd tl =>
      have hhd : hd = ((1 : ℚ), word) := by
        have hdmem' : hd ∈ poss.filterMap (fun x =>
            if cutoff ≤ realQuickRatio x word ∧ cutoff ≤ quickRatio x word ∧
               cutoff ≤ pyRatio x word then some (pyRatio x word, x) else none) := by
          apply hperm.mem_iff.mp
          rw [hs]
          exact List.mem_cons_self hd tl
        obtain ⟨hdposs, hdval⟩ := gcm_scored_mem hdmem'
        have h1mem : ((1 : ℚ), word) ∈ hd :: tl := by
          rw [← hs]
          exact (hperm.symm.mem_iff).mp hself
        rcases List.mem_cons.mp h1mem with h' | h'
        · exact h'.symm
        · have hge : tupGe hd ((1 : ℚ), word) := by
            rw [hs] at hsorted
            exact List.rel_of_sorted_cons hsorted _ h'
          have hle1 : hd.1 ≤ 1 := by
            rw [hdval]
            exact pyRatio_le_one hd.2 word
          unfold tupGe at hge
          rcases hge with hge | ⟨hge, _⟩
          · exact absurd hge (by simp; exact hle1)
          · have : pyRatio hd.2 word = 1 := by rw [← hdval, hge]
            have heq := pyRatio_eq_one this
            rcases hd with ⟨r, x⟩
            simp only at hdval heq
            rw [heq, hdval, heq, pyRatio_self]
      rw [hhd]
      cases n with
      | zero => omega
      | succ m => rfl

-- Invariants of the clustering loop.

lemma clusterGo_invariant (univ : List PyStr) (cutoff : ℚ) :
    ∀ (l visited : List PyStr),
      (∀ e ∈ clusterGo univ cutoff l visited,
        ¬ e.1 ∈ visited ∧ e.1 ∈ l ∧ e.2 = getCloseMatches e.1 univ 10 cutoff) ∧
      List.Pairwise (fun e1 e2 => ¬ e2.1 ∈ e1.2) (clusterGo univ cutoff l visited) := by
  intro l
  induction l with
  | nil =>
      intro visited
      constructor
      · intro e he
        simp [clusterGo] at he
      · simp [clusterGo]
  | cons h rest ih =>
      intro visited
      by_cases hv : h ∈ visited
      · simp only [clusterGo, if_pos hv]
        obtain ⟨ih1, ih2⟩ := ih visited
        refine ⟨?_, ih2⟩
        intro e he
        obtain ⟨he1, he2, he3⟩ := ih1 e he
        exact ⟨he1, List.mem_cons_of_mem h he2, he3⟩
      · simp only [clusterGo, if_neg hv]
        obtain ⟨ih1, ih2⟩ := ih (visited ++ getCloseMatches h univ 10 cutoff)
        constructor
        · intro e he
          rcases List.mem_cons.mp he with rfl | he'
          · exact ⟨hv, List.mem_cons_self h rest, rfl⟩
          · obtain ⟨he1, he2, he3⟩ := ih1 e he'
            refine ⟨fun hcon => he1 (List.mem_append_left _ hcon),
                    List.mem_cons_of_mem h he2, he3⟩
        · refine List.Pairwise.cons ?_ ih2
          intro e2 he2
          obtain ⟨he1, _, _⟩ := ih1 e2 he2
          exact fun hcon => he1 (List.mem_append_right _ hcon)

lemma mem_of_head?_eq_some {α : Type} {l : List α} {x : α}
    (h : l.head? = some x) : x ∈ l := by
  cases l with
  | nil => simp at h
  | cons a t =>
      simp only [List.head?_cons, Option.some_inj] at h
      rw [← h]
      exact List.mem_cons_self a t

/-- C10: for every non-empty header universe and cutoff in `[0.6, 0.9]`, every
cluster of the draft mapping has a non-empty variant list whose FIRST element
is the cluster's own canonical name: the exact self match has ratio 1.0,
which passes every allowed cutoff and strictly outranks every distinct
header. -/
theorem claim_C10_canonical_heads_own_variants
    (univ : List PyStr) (cutoff : ℚ)
    (hlo : mkRat 3 5 ≤ cutoff) (hhi : cutoff ≤ mkRat 9 10) (hne : univ ≠ []) :
    ∀ e ∈ createDraftMapping univ cutoff, e.2 ≠ [] ∧ e.2.head? = some e.1 := by
  intro e he
  have hcut1 : cutoff ≤ 1 := le_trans hhi (by decide)
  obtain ⟨_, hmem, hvar⟩ := (clusterGo_invariant univ cutoff univ []).1 e he
  have hh := @gcm_head e.1 univ cutoff 10 hmem hcut1 (show 0 < 10 by omega)
  rw [hvar]
  refine ⟨?_, hh⟩
  intro hnil
  rw [hnil] at hh
  simp at hh

/-- C10 witness at a one-header universe with the default cutoff. -/
theorem claim_C10_witness :
    (pystr "age", [pystr "age"]).2 ≠ [] ∧
    (pystr "age", [pystr "age"]).2.head? = some (pystr "age", [pystr "age"]).1 :=
  claim_C10_canonical_heads_own_variants [pystr "age"] (mkRat 4 5)
    (by decide) (by decide) (by decide) (pystr "age", [pystr "age"]) (by decide)

/-- C1 counterexample: over the universe `{aab, bbc, abb}` (in this
enumeration order) at cutoff 0.6 — inside `[0.6, 0.9]` — the header `abb` is
claimed by the cluster of `aab` AND appears again in the variant list of the
later cluster `bbc`: `get_close_matches` searches ALL headers, not just
unclaimed ones, so the variant lists do not partition the claimed headers. -/
theorem claim_C1_counterexample :
    (mkRat 3 5 ≤ mkRat 3 5 ∧ mkRat 3 5 ≤ mkRat 9 10) ∧
    (createDraftMapping [pystr "aab", pystr "bbc", pystr "abb"]
        (mkRat 3 5)).countP (fun e => decide (pystr "abb" ∈ e.2)) = 2 := by
  decide

/-- C1 amended: once a header is claimed it can never become a LATER
cluster's canonical name (the `visited` check), and canonical names are
pairwise distinct; but a claimed header MAY appear again in a later cluster's
variant list, so the variant lists need not partition the claimed headers. -/
theorem claim_C1_amended_one_shot_canonicals
    (univ : List PyStr) (cutoff : ℚ) (hcut : cutoff ≤ mkRat 9 10) :
    List.Pairwise (fun e1 e2 => ¬ e2.1 ∈ e1.2 ∧ e1.1 ≠ e2.1)
      (createDraftMapping univ cutoff) := by
  have hinv := clusterGo_invariant univ cutoff univ []
  have hcut1 : cutoff ≤ 1 := le_trans hcut (by decide)
  refine List.Pairwise.imp_of_mem ?_ hinv.2
  intro e1 e2 h1 h2 hrel
  refine ⟨hrel, ?_⟩
  obtain ⟨_, hmem1, hvar1⟩ := hinv.1 e1 h1
  have hself : e1.1 ∈ e1.2 := by
    rw [hvar1]
    exact mem_of_head?_eq_some (gcm_head hmem1 hcut1 (show 0 < 10 by omega))
  intro heq
  rw [heq] at hself
  exact hrel hself

/-- C1 amended witness: on the counterexample universe the canonical names
are still one-shot and distinct. -/
theorem claim_C1_amended_witness :
    List.Pairwise (fun e1 e2 => ¬ e2.1 ∈ e1.2 ∧ e1.1 ≠ e2.1)
      (createDraftMapping [pystr "aab", pystr "bbc", pystr "abb"] (mkRat 3 5)) :=
  claim_C1_amended_one_shot_canonicals _ _ (by decide)

-- Raising the cutoff filters a sublist of the candidates.

lemma filterMap_sublist_of_imp {α β : Type} (f g : α → Option β) (l : List α)
    (h : ∀ x y, g x = some y → f x = some y) :
    List.Sublist (l.filterMap g) (l.filterMap f) := by
  induction l with
  | nil => exact List.Sublist.slnil
  | cons a t ih =>
      rw [List.filterMap_cons, List.filterMap_cons]
      cases hg : g a with
      | none =>
          cases f a with
          | none => exact ih
          | some y => exact List.Sublist.cons y ih
      | some y =>
          rw [h a y hg]
          exact List.Sublist.cons₂ y ih

lemma gcm_length_anti (word : PyStr) (poss : List PyStr) (n : Nat)
    {c1 c2 : ℚ} (h : c1 ≤ c2) :
    (getCloseMatches word poss n c2).length ≤
      (getCloseMatches word poss n c1).length := by
  unfold getCloseMatches
  rw [List.length_map, List.length_map, List.length_take, List.length_take,
      List.length_insertionSort, List.length_insertionSort]
  have hsub : List.Sublist
      (poss.filterMap (fun x =>
        if c2 ≤ realQuickRatio x word ∧ c2 ≤ quickRatio x word ∧
           c2 ≤ pyRatio x word then some (pyRatio x word, x) else none))
      (poss.filterMap (fun x =>
        if c1 ≤ realQuickRatio x word ∧ c1 ≤ quickRatio x word ∧
           c1 ≤ pyRatio x word then some (pyRatio x word, x) else none)) := by
    apply filterMap_sublist_of_imp
    intro x y hxy
    split at hxy
    · rename_i hc
      rw [if_pos ⟨le_trans h hc.1, le_trans h hc.2.1, le_trans h hc.2.2⟩]
      exact hxy
    · cases hxy
  exact min_le_min (le_refl n) hsub.length_le

/-- C3: for a fixed header universe and cutoffs `c1 ≤ c2` in `[0.6, 0.9]`, a
header that is canonical under both cutoffs has a variant list at `c2` no
longer than its variant list at `c1` (a stricter similarity threshold keeps
fewer or equally many of the top-10 matches). -/
theorem claim_C3_cutoff_monotone
    (univ : List PyStr) (c1 c2 : ℚ) (hdr : PyStr) (v1 v2 : List PyStr)
    (hlo : mkRat 3 5 ≤ c1) (h12 : c1 ≤ c2) (hhi : c2 ≤ mkRat 9 10)
    (h1 : (hdr, v1) ∈ createDraftMapping univ c1)
    (h2 : (hdr, v2) ∈ createDraftMapping univ c2) :
    v2.length ≤ v1.length := by
  obtain ⟨_, _, hv1⟩ := (clusterGo_invariant univ c1 univ []).1 _ h1
  obtain ⟨_, _, hv2⟩ := (clusterGo_invariant univ c2 univ []).1 _ h2
  dsimp only at hv1 hv2
  rw [hv1, hv2]
  exact gcm_length_anti hdr univ 10 h12

/-- C3 witness: `{aab, abb}` at cutoffs 0.6 and 0.9. -/
theorem claim_C3_witness :
    ([pystr "aab"] : List PyStr).length ≤
      ([pystr "aab", pystr "abb"] : List PyStr).length :=
  claim_C3_cutoff_monotone [pystr "aab", pystr "abb"] (mkRat 3 5) (mkRat 9 10)
    (pystr "aab") [pystr "aab", pystr "abb"] [pystr "aab"]
    (by decide) (by decide) (by decide) (by decide) (by decide)

/-! ## Draft-mapping export and re-import (`src/app.py` lines 101–116)

The Excel file is modelled at the dataframe level: a list of
`(Standard_Name, Variations)` rows. -/

/-- `", ".join(v)`: comma 44, space 32. -/
def joinCommaSpace : List PyStr → PyStr
  | [] => []
  | [v] => v
  | v :: rest => v ++ 44 :: 32 :: joinCommaSpace rest

/-- The export rows `{"Standard_Name": k, "Variations": ", ".join(v)}`
(`src/app.py` line 101). -/
def exportRows (m : List (PyStr × List PyStr)) : List (PyStr × PyStr) :=
  m.map (fun kv => (kv.1, joinCommaSpace kv.2))

/-- Python `str.split(",")`: split on every comma, keeping empty pieces. -/
def splitComma : PyStr → List PyStr
  | [] => [[]]
  | c :: cs =>
      match splitComma cs with
      | [] => [[]]
      | s :: ss => if c = 44 then [] :: s :: ss else (c :: s) :: ss

/-- Python dict assignment `d[k] = v` for list values. -/
def upsertKV (m : List (PyStr × List PyStr)) (k : PyStr) (v : List PyStr) :
    List (PyStr × List PyStr) :=
  if m.any (fun e => decide (e.1 = k)) then
    m.map (fun e => if e.1 = k then (k, v) else e)
  else m ++ [(k, v)]

/-- `convert_excel_to_json` (`src/app.py` lines 109–116): each row's
Standard_Name is re-normalized; Variations is split on commas and each piece
that is non-empty after strip is normalized. -/
def convertExcelToJson (rows : List (PyStr × PyStr)) : List (PyStr × List PyStr) :=
  rows.foldl (fun acc row =>
    upsertKV acc (pyNormalize row.1)
      ((splitComma row.2).filterMap (fun v =>
        if pyStrip v ≠ [] then some (pyNormalize v) else none))) []

/-- C4 counterexample: the draft built from the single (already normalized)
header `a,b` exports its variant list as the string `a,b`; re-importing
splits on the comma and yields the two variants `a` and `b`, so the
export/re-import pair is NOT semantic-preserving for every producible
draft. -/
theorem claim_C4_counterexample :
    convertExcelToJson (exportRows
        (createDraftMapping [pystr "a,b"] (mkRat 4 5))) ≠
      createDraftMapping [pystr "a,b"] (mkRat 4 5) := by
  decide

-- Round-trip lemmas for comma-free normalized variants.

lemma pyStrip_eq_self_of_normalized {v : PyStr} (h : pyNormalize v = v) :
    pyStrip v = v := by
  obtain ⟨h1, h2⟩ := pyNormalize_ends_clean v
  rw [h] at h1 h2
  exact pyStrip_eq_self h1 h2

lemma pyStrip_space_cons (s : PyStr) : pyStrip (32 :: s) = pyStrip s := by
  unfold pyStrip
  rw [List.dropWhile_cons_of_pos (by decide)]

lemma pyNormalize_space_cons (s : PyStr) :
    pyNormalize (32 :: s) = pyNormalize s := by
  unfold pyNormalize
  rw [pyStrip_space_cons]

lemma splitComma_cons (c : Nat) (cs : PyStr) :
    splitComma (c :: cs) =
      match splitComma cs with
      | [] => [[]]
      | s :: ss => if c = 44 then [] :: s :: ss else (c :: s) :: ss := rfl

lemma splitComma_ne_nil (v : PyStr) : splitComma v ≠ [] := by
  cases v with
  | nil => simp [splitComma]
  | cons c cs =>
      rw [splitComma_cons]
      cases splitComma cs with
      | nil => simp
      | cons s ss => by_cases hc : c = 44 <;> simp [hc]

lemma splitComma_no_comma {v : PyStr} (h : ¬ 44 ∈ v) : splitComma v = [v] := by
  induction v with
  | nil => rfl
  | cons c cs ih =>
      rw [splitComma_cons, ih (fun hc => h (List.mem_cons_of_mem c hc))]
      have hc44 : ¬ c = 44 := fun hc => h (by rw [← hc]; exact List.mem_cons_self c cs)
      simp [hc44]

lemma splitComma_append_comma (x y : PyStr) (h : ¬ 44 ∈ x) :
    splitComma (x ++ 44 :: y) = x :: splitComma y := by
  induction x with
  | nil =>
      simp only [List.nil_append]
      rw [splitComma_cons]
      cases hy : splitComma y with
      | nil => exact absurd hy (splitComma_ne_nil y)
      | cons s ss => simp
  | cons c cs ih =>
      simp only [List.cons_append]
      rw [splitComma_cons, ih (fun hc => h (List.mem_cons_of_mem c hc))]
      have hc44 : ¬ c = 44 := fun hc => h (by rw [← hc]; exact List.mem_cons_self c cs)
      simp [hc44]

lemma filterMap_splitComma_space_cons (l : PyStr) :
    (splitComma (32 :: l)).filterMap (fun v =>
        if pyStrip v ≠ [] then some (pyNormalize v) else none) =
      (splitComma l).filterMap (fun v =>
        if pyStrip v ≠ [] then some (pyNormalize v) else none) := by
  have hstep : splitComma (32 :: l) =
      match splitComma l with
      | [] => [[]]
      | s :: ss => (32 :: s) :: ss := by
    rw [splitComma_cons]
    cases splitComma l with
    | nil => rfl
    | cons s ss => simp
  rw [hstep]
  cases hl : splitComma l with
  | nil => exact absurd hl (splitComma_ne_nil l)
  | cons s ss =>
      rw [List.filterMap_cons, List.filterMap_cons,
          pyStrip_space_cons, pyNormalize_space_cons]

/-- Splitting the joined variants and re-normalizing recovers the variant
list, provided every variant is normalized, comma-free and non-empty. -/
lemma roundTripVariations (vs : List PyStr)
    (hv : ∀ v ∈ vs, pyNormalize v = v ∧ ¬ 44 ∈ v ∧ v ≠ []) :
    (splitComma (joinCommaSpace vs)).filterMap (fun v =>
      if pyStrip v ≠ [] then some (pyNormalize v) else none) = vs := by
  induction vs with
  | nil => rfl
  | cons v rest ih =>
      obtain ⟨hn, hc, hne⟩ := hv v (List.mem_cons_self v rest)
      have hval : (if pyStrip v ≠ [] then some (pyNormalize v) else none)
          = some v := by
        rw [pyStrip_eq_self_of_normalized hn, if_pos hne, hn]
      cases rest with
      | nil =>
          rw [show joinCommaSpace [v] = v from rfl,
              splitComma_no_comma hc, List.filterMap_cons, hval]
          rfl
      | cons w ws =>
          have hjoin : joinCommaSpace (v :: w :: ws)
              = v ++ 44 :: 32 :: joinCommaSpace (w :: ws) := rfl
          rw [hjoin, splitComma_append_comma _ _ hc, List.filterMap_cons, hval]
          dsimp only
          congr 1
          rw [filterMap_splitComma_space_cons]
          exact ih (fun u hu => hv u (List.mem_cons_of_mem v hu))

lemma upsertKV_append {m : List (PyStr × List PyStr)} {k : PyStr} {v : List PyStr}
    (h : ¬ k ∈ m.map Prod.fst) : upsertKV m k v = m ++ [(k, v)] := by
  unfold upsertKV
  rw [if_neg]
  intro hany
  obtain ⟨e, he, heq⟩ := List.any_eq_true.mp hany
  exact h (List.mem_map.mpr ⟨e, he, by simpa using heq⟩)

lemma convertExcelToJson_fold (m : List (PyStr × List PyStr)) :
    ∀ acc : List (PyStr × List PyStr),
      (∀ e ∈ m, pyNormalize e.1 = e.1 ∧
        ∀ v ∈ e.2, pyNormalize v = v ∧ ¬ 44 ∈ v ∧ v ≠ []) →
      (∀ e ∈ m, ¬ e.1 ∈ acc.map Prod.fst) →
      (m.map Prod.fst).Nodup →
      (exportRows m).foldl (fun acc row =>
        upsertKV acc (pyNormalize row.1)
          ((splitComma row.2).filterMap (fun v =>
            if pyStrip v ≠ [] then some (pyNormalize v) else none))) acc = acc ++ m := by
  induction m with
  | nil =>
      intro acc _ _ _
      simp [exportRows]
  | cons e es ih =>
      intro acc hcond hfresh hnodup
      obtain ⟨hk, hv⟩ := hcond e (List.mem_cons_self e es)
      simp only [exportRows, List.map_cons, List.foldl_cons]
      rw [hk, roundTripVariations e.2 hv,
          upsertKV_append (hfresh e (List.mem_cons_self e es))]
      have hr : List.foldl (fun acc row =>
            upsertKV acc (pyNormalize row.1)
              ((splitComma row.2).filterMap (fun v =>
                if pyStrip v ≠ [] then some (pyNormalize v) else none)))
            (acc ++ [(e.1, e.2)]) (List.map (fun kv => (kv.1, joinCommaSpace kv.2)) es)
          = (acc ++ [(e.1, e.2)]) ++ es :=
        ih (acc ++ [(e.1, e.2)])
          (fun e' he' => hcond e' (List.mem_cons_of_mem e he'))
          (by
            intro e' he'
            rw [List.map_append, List.map_singleton]
            intro hcon
            rcases List.mem_append.mp hcon with hca | hcb
            · exact hfresh e' (List.mem_cons_of_mem e he') hca
            · have h1 : e'.1 = e.1 := by simpa using hcb
              have h2 : e.1 ∉ es.map Prod.fst := by
                rw [List.map_cons] at hnodup
                exact (List.nodup_cons.mp hnodup).1
              exact h2 (h1 ▸ List.mem_map.mpr ⟨e', he', rfl⟩))
          (by
            rw [List.map_cons] at hnodup
            exact (List.nodup_cons.mp hnodup).2)
      rw [hr, show ((e.1, e.2) : PyStr × List PyStr) = e from rfl,
          List.append_assoc]
      rfl

/-- C4 amended: export followed by re-import is semantic-preserving for
every mapping whose canonical names are distinct and normalized and whose
variants are normalized, comma-free and non-empty (true of typical drafts);
it fails in general — a variant containing a comma is split apart on
re-import (see the counterexample). -/
theorem claim_C4_amended_roundtrip (m : List (PyStr × List PyStr))
    (hkeys : (m.map Prod.fst).Nodup)
    (hcond : ∀ e ∈ m, pyNormalize e.1 = e.1 ∧
      ∀ v ∈ e.2, pyNormalize v = v ∧ ¬ 44 ∈ v ∧ v ≠ []) :
    convertExcelToJson (exportRows m) = m := by
  unfold convertExcelToJson
  have := convertExcelToJson_fold m [] hcond (by simp) hkeys
  simpa using this

/-- C4 amended witness at a concrete comma-free draft. -/
theorem claim_C4_witness :
    convertExcelToJson (exportRows
        [(pystr "age", [pystr "age", pystr "age_years"])]) =
      [(pystr "age", [pystr "age", pystr "age_years"])] :=
  claim_C4_amended_roundtrip [(pystr "age", [pystr "age", pystr "age_years"])]
    (by decide) (by decide)
